import Mathlib

/-!
# Verification of the GPUQuantile DDSketch core

Shallow embedding of the DDSketch implementation:
* `ContiguousStorage` embeds `GPUQuantile/ddsketch/storage/contiguous.py`
  (circular-buffer bucket store);
* the mapping schemes embed `GPUQuantile/ddsketch/mapping/logarithmic.py`
  and `linear_interpolation.py`, with Python floats modelled as real numbers;
* `DDSketch` embeds `GPUQuantile/ddsketch/core.py`, with stream values
  modelled as rationals (every IEEE-754 float is a rational) and the mapping
  functions over the reals.

Python `//` on integers is floor division (`Int.fdiv`); Python `%` with a
positive modulus agrees with `Int.emod`.  The counts array is
`np.zeros(max_buckets, dtype=np.int64)`: its element arithmetic wraps
silently at 64 bits, modelled by `wrap64` at every write into the array
(see `wrap64` for the cases where numpy raises instead of wrapping).
`total_count` lives on the plain-Python base class and is an unbounded
integer.  The counts array of fixed length `size` is modelled as a total
function `ℤ → ℤ`; all positions written or read by the code are the
results of `% size`, exactly as in the source.
-/

namespace GPUQuantile

/-- Two-complement 64-bit wrap-around, the semantics of numpy `int64`
element arithmetic: in-place `+=` and the scalar subtraction in `remove`
silently wrap past `2^63 - 1`.  (When an *operand* itself lies outside the
int64 range numpy raises `OverflowError` or promotes, depending on the
numpy version, rather than wrapping; the concrete runs and the safety
predicate of claim 10 keep every operand in range, where `wrap64` agrees
exactly with the source.) -/
def wrap64 (n : ℤ) : ℤ := (n + 2 ^ 63) % 2 ^ 64 - 2 ^ 63

/-- Bucket store state, embedding `ContiguousStorage.__init__` together with
the `max_buckets` / `total_count` attributes of its base class.
The base class `storage/base.py` is not among the sources.
Modelled from the spec: the missing `Storage` base carries the per-store
bucket cap `max_buckets` and the running `total_count` (initially 0). -/
structure ContiguousStorage where
  /-- Source `len(self.counts)`: fixed physical array length, equal to the
  `max_buckets` passed to the constructor. -/
  size : ℕ
  /-- Slot contents of the circular buffer (`self.counts`). -/
  counts : ℤ → ℤ
  /-- Source `self.min_index`; `none` models Python `None`. -/
  minIndex : Option ℤ
  /-- Source `self.max_index`. `min_index` and `max_index` are always both `None`
  or both set in the source. -/
  maxIndex : Option ℤ
  /-- Source `self.num_buckets`: number of non-zero buckets. -/
  numBuckets : ℤ
  /-- Source `self.head`: array position corresponding to `min_index`. -/
  head : ℤ
  /-- Source `self.offset`. -/
  offset : ℤ
  /-- Source `self.total_count`, from the missing base class (starts at 0). -/
  totalCount : ℤ
  /-- Source `self.max_buckets`, from the missing base class. -/
  maxBuckets : ℤ

namespace ContiguousStorage

/-- Constructor `ContiguousStorage(max_buckets)`.  The constructor raises `ValueError`
for `max_buckets <= 0`; callers in this development only instantiate it with
positive caps. -/
def init (maxBuckets : ℕ) : ContiguousStorage :=
  { size := maxBuckets
    counts := fun _ => 0
    minIndex := none
    maxIndex := none
    numBuckets := 0
    head := 0
    offset := 0
    totalCount := 0
    maxBuckets := maxBuckets }

/-- Method `_get_position`: array position for a bucket index, circular. -/
def getPosition (s : ContiguousStorage) (bucketIndex : ℤ) : ℤ :=
  match s.minIndex with
  | none => 0
  | some mi => (s.head + (bucketIndex - mi) + s.offset) % (s.size : ℤ)

/-- Method `get_count`: count stored for a bucket index (0 outside the range).
In the source `min_index` and `max_index` are both `None` or both integers;
the mixed case (which would raise a `TypeError` in Python) is mapped to 0. -/
def getCount (s : ContiguousStorage) (bucketIndex : ℤ) : ℤ :=
  match s.minIndex, s.maxIndex with
  | some mi, some ma =>
      if bucketIndex < mi ∨ bucketIndex > ma then 0
      else s.counts (s.getPosition bucketIndex)
  | _, _ => 0

/-- Method `_center_data`: shift the logical window; only reachable with
`min_index` set (it is called from `add` after the first insertion). -/
def centerData (s : ContiguousStorage) (newMin newMax : ℤ) : ContiguousStorage :=
  match s.minIndex, s.maxIndex with
  | some mi, some ma =>
      let center := (newMin + newMax).fdiv 2
      let shift := center - (mi + ma).fdiv 2
      { s with
        offset := (s.offset + shift) % (s.size : ℤ)
        minIndex := some newMin
        maxIndex := some newMax
        head := (s.head + shift) % (s.size : ℤ) }
  | _, _ => s

/-- The `while next_bucket <= self.max_index and self.get_count(next_bucket) == 0`
search inside `_collapse_to_fit`; the fuel bounds the number of steps and is
chosen at the call site to cover the whole index range. -/
def findNextNonzero (s : ContiguousStorage) (ma : ℤ) : ℤ → ℕ → ℤ
  | nb, 0 => nb
  | nb, fuel + 1 =>
      if nb ≤ ma ∧ s.getCount nb = 0 then s.findNextNonzero ma (nb + 1) fuel
      else nb

/-- One pass of the `for i in range(buckets_to_collapse)` loop of
`_collapse_to_fit`; the `break` is modelled by returning the state. -/
def collapseLoop (s : ContiguousStorage) : ℕ → ContiguousStorage
  | 0 => s
  | fuel + 1 =>
      match s.minIndex, s.maxIndex with
      | some mi, some ma =>
          let nb := s.findNextNonzero ma (mi + 1) ((ma - mi).toNat + 1)
          if nb > ma then s
          else
            let s1 :=
              if s.getCount mi > 0 then
                let pn := s.getPosition nb
                let pm := s.getPosition mi
                { s with
                  counts :=
                    Function.update
                      (Function.update s.counts pn (wrap64 (s.counts pn + s.counts pm))) pm 0
                  numBuckets := s.numBuckets - 1 }
              else s
            let s2 := { s1 with minIndex := some nb }
            let s3 := { s2 with head := s2.getPosition nb }
            collapseLoop s3 fuel
      | _, _ => s

/-- Method `_collapse_to_fit`. -/
def collapseToFit (s : ContiguousStorage) (newMin newMax : ℤ) : ContiguousStorage :=
  let bucketsToCollapse := (newMax - newMin + 1) - (s.size : ℤ)
  if bucketsToCollapse ≤ 0 then s
  else s.collapseLoop bucketsToCollapse.toNat

/-- The scan of `collapse_smallest_buckets` looking for the first two
non-zero slots.  It reproduces the source faithfully, including the
`first_pos == self.head` sentinel test.  Returns the final
`(first_pos, second_pos)`. -/
def findTwoAux (s : ContiguousStorage) : ℤ → ℕ → ℕ → ℤ × Option ℤ
  | firstPos, _, 0 => (firstPos, none)
  | firstPos, i, fuel + 1 =>
      let pos := (s.head + (i : ℤ)) % (s.size : ℤ)
      if s.counts pos > 0 then
        if firstPos = s.head then s.findTwoAux pos (i + 1) fuel
        else (firstPos, some pos)
      else s.findTwoAux firstPos (i + 1) fuel

/-- Method `collapse_smallest_buckets`. -/
def collapseSmallestBuckets (s : ContiguousStorage) : ContiguousStorage :=
  if s.numBuckets < 2 then s
  else
    match s.minIndex, s.maxIndex with
    | some mi, some ma =>
        let fs := s.findTwoAux s.head 0 (ma - mi + 1).toNat
        match fs.2 with
        | none => s
        | some secondPos =>
            let firstPos := fs.1
            { s with
              counts :=
                Function.update
                  (Function.update s.counts secondPos
                    (wrap64 (s.counts secondPos + s.counts firstPos))) firstPos 0
              numBuckets := s.numBuckets - 1
              minIndex := some (mi + (secondPos - firstPos))
              head := secondPos }
    | _, _ => s

/-- The range-extension step of `add` (lines 71-82 of `contiguous.py`):
when the bucket falls outside `[min_index, max_index]`, re-center and, if
the new span exceeds the array, collapse to fit. -/
def extendRange (s : ContiguousStorage) (mi ma bucketIndex : ℤ) : ContiguousStorage :=
  if bucketIndex < mi ∨ bucketIndex > ma then
    let newMin := min mi bucketIndex
    let newMax := max ma bucketIndex
    let sC := s.centerData newMin newMax
    if (newMax - newMin + 1) > (s.size : ℤ) then
      sC.collapseToFit newMin newMax
    else sC
  else s

/-- The body of `add` before the cap check and the `total_count` update:
first insertion, or range extension followed by the in-place increment. -/
def addSeat (s : ContiguousStorage) (bucketIndex count : ℤ) : ContiguousStorage :=
  match s.minIndex, s.maxIndex with
  | none, _ =>
      -- first insertion; `offset` is left untouched by the source
      { s with
        minIndex := some bucketIndex
        maxIndex := some bucketIndex
        counts := Function.update s.counts 0 (wrap64 count)
        numBuckets := 1
        head := 0 }
  | some mi, some ma =>
      let s' := s.extendRange mi ma bucketIndex
      let pos := s'.getPosition bucketIndex
      let wasZero := s'.counts pos = 0
      let s'' := { s' with counts := Function.update s'.counts pos (wrap64 (s'.counts pos + count)) }
      if wasZero then { s'' with numBuckets := s''.numBuckets + 1 } else s''
  | some _, none => s -- unreachable: min/max are set together

/-- Method `add(bucket_index, count=1)`. -/
def add (s : ContiguousStorage) (bucketIndex : ℤ) (count : ℤ) : ContiguousStorage :=
  if count ≤ 0 then s
  else
    let s1 := s.addSeat bucketIndex count
    let s2 :=
      if s1.numBuckets > s1.maxBuckets then s1.collapseSmallestBuckets else s1
    { s2 with totalCount := s2.totalCount + count }

/-- The `for i in range(...)` scan in `remove` that finds the new minimum
index: first offset `i` (scanning up from `head`) whose slot is non-zero. -/
def findUp (s : ContiguousStorage) (span : ℕ) : Option ℕ :=
  (List.range span).find? fun i => s.counts ((s.head + (i : ℤ)) % (s.size : ℤ)) > 0

/-- The scan in `remove` that finds the new maximum index: first `i` such
that the slot at logical offset `(max_index - min_index) - i` is non-zero. -/
def findDown (s : ContiguousStorage) (mi ma : ℤ) (span : ℕ) : Option ℕ :=
  (List.range span).find? fun i =>
    s.counts ((s.head + (ma - mi - (i : ℤ))) % (s.size : ℤ)) > 0

/-- Method `remove(bucket_index, count=1)`.  Note that in the source this method
has no `return` statement: in Python it returns `None`. -/
def remove (s : ContiguousStorage) (bucketIndex : ℤ) (count : ℤ) : ContiguousStorage :=
  if count ≤ 0 then s
  else
    match s.minIndex, s.maxIndex with
    | some mi, some ma =>
        if mi ≤ bucketIndex ∧ bucketIndex ≤ ma then
          let pos := s.getPosition bucketIndex
          let oldCount := s.counts pos
          let s1 :=
            { s with
              counts := Function.update s.counts pos (max 0 (wrap64 (oldCount - count)))
              totalCount := max 0 (s.totalCount - count) }
          if oldCount > 0 ∧ max 0 (wrap64 (oldCount - count)) = 0 then
            let s2 := { s1 with numBuckets := s1.numBuckets - 1 }
            if s2.numBuckets = 0 then
              { s2 with minIndex := none, maxIndex := none }
            else if bucketIndex = mi then
              match s2.findUp (ma - mi + 1).toNat with
              | some i =>
                  { s2 with
                    minIndex := some (mi + (i : ℤ))
                    head := (s2.head + (i : ℤ)) % (s2.size : ℤ) }
              | none => s2
            else if bucketIndex = ma then
              match s2.findDown mi ma (ma - mi + 1).toNat with
              | some i => { s2 with maxIndex := some (ma - (i : ℤ)) }
              | none => s2
            else s2
          else s1
        else s
    | _, _ => s

/-- Method `merge(other)`: walk the other store's physical slots from its head and
`add` every positive one.  Note the source indexes `other.counts` at
`(other.head + i) % len(other.counts)`, ignoring `other.offset`. -/
def merge (s o : ContiguousStorage) : ContiguousStorage :=
  match o.minIndex, o.maxIndex with
  | some mi, some ma =>
      (List.range (ma - mi + 1).toNat).foldl
        (fun (acc : ContiguousStorage) (i : ℕ) =>
          let pos := (o.head + (i : ℤ)) % (o.size : ℤ)
          if o.counts pos > 0 then acc.add (mi + (i : ℤ)) (o.counts pos) else acc)
        s
  | _, _ => s

/-- Sum of `get_count` over the *present* buckets (those of strictly
positive count) of the store's index range.  This is the right-hand side of
the spec's store-conservation invariant. -/
def presentSum (s : ContiguousStorage) : ℤ :=
  match s.minIndex, s.maxIndex with
  | some mi, some ma =>
      (((List.range (ma - mi + 1).toNat).map fun i => s.getCount (mi + (i : ℤ))).filter
        fun c => 0 < c).sum
  | _, _ => 0

end ContiguousStorage

/-! ## Mapping schemes

`logarithmic.py` and `linear_interpolation.py`, with floats modelled as
reals.  `np.log`, `np.log2`, `np.power` and `np.frexp` are modelled by
`Real.log`, `Real.logb 2`, `zpow` and the exact binary decomposition
`x = m * 2 ^ ⌊logb 2 x⌋` with `m ∈ [1, 2)`. -/

/-- The growth factor `gamma = (1 + alpha) / (1 - alpha)`, computed in both mapping
constructors. -/
noncomputable def gammaR (α : ℝ) : ℝ := (1 + α) / (1 - α)

/-- Method `LogarithmicMapping.compute_bucket_index`:
`ceil(log(value) * multiplier)` with `multiplier = 1 / log(gamma)`,
i.e. `⌈log x / log γ⌉`.  The source raises `ValueError` for `value <= 0`;
all uses below are at positive arguments. -/
noncomputable def logIndexOf (α x : ℝ) : ℤ :=
  ⌈Real.log x / Real.log (gammaR α)⌉

/-- Method `LogarithmicMapping.compute_value_from_index`: `np.power(gamma, index)`. -/
noncomputable def logValueOf (α : ℝ) (k : ℤ) : ℝ := gammaR α ^ k

/-- The piecewise-linear surrogate of `log2` computed by
`LinearInterpolationMapping.compute_bucket_index`: with
`exponent = ⌊log2 x⌋` and `normalized_fraction = x / 2^exponent ∈ [1,2)`
(from `np.frexp`), it returns `exponent + (normalized_fraction - 1)`. -/
noncomputable def linL (x : ℝ) : ℝ :=
  (⌊Real.logb 2 x⌋ : ℝ) + x / (2 : ℝ) ^ ⌊Real.logb 2 x⌋ - 1

/-- Method `LinearInterpolationMapping.compute_bucket_index`:
`ceil(log2_value / log2_gamma)` with `log2_value = linL x`. -/
noncomputable def linIndexOf (α x : ℝ) : ℤ :=
  ⌈linL x / Real.logb 2 (gammaR α)⌉

/-- Method `LinearInterpolationMapping.compute_value_from_index`:
`np.power(gamma, index)`. -/
noncomputable def linValueOf (α : ℝ) (k : ℤ) : ℝ := gammaR α ^ k

/-- The mapping interface used polymorphically by `DDSketch`
(`compute_bucket_index` / `compute_value_from_index`). -/
structure Mapping where
  indexOf : ℝ → ℤ
  valueOf : ℤ → ℝ

/-- The `mapping_type='logarithmic'` instantiation. -/
noncomputable def logMapping (α : ℝ) : Mapping :=
  { indexOf := logIndexOf α, valueOf := logValueOf α }

/-- The `mapping_type='lin_interpol'` instantiation. -/
noncomputable def linMapping (α : ℝ) : Mapping :=
  { indexOf := linIndexOf α, valueOf := linValueOf α }

/-! ## The sketch (`core.py`)

Stream values and quantile arguments are Python floats, modelled as
rationals (every finite float is rational); the mapping functions take the
value cast to `ℝ`.  Raised exceptions are modelled by `SkErr`:
`valueError` for every `raise ValueError(...)` in the source, and
`attributeError` for the unchecked crash of calling a method on `None`. -/

inductive SkErr where
  | valueError : SkErr
  | attributeError : SkErr
  deriving DecidableEq

/-- Result of `quantile`: a float, or the `float('inf')` fallback. -/
inductive QVal where
  | val : ℝ → QVal
  | inf : QVal

/-- Sketch state (`DDSketch.__init__` attributes). -/
structure DDSketch where
  relativeAccuracy : ℚ
  contNeg : Bool
  mapping : Mapping
  positiveStore : ContiguousStorage
  negativeStore : Option ContiguousStorage
  count : ℤ
  zeroCount : ℤ
  minValue : Option ℚ
  maxValue : Option ℚ

/-- Line 74 of `core.py`:
`store_max_buckets = max_buckets // 2 if cont_neg else max_buckets`.
The result is never used afterwards — both stores are built with
`max_buckets` (lines 78-79). -/
def storeMaxBuckets (maxBuckets : ℕ) (contNeg : Bool) : ℕ :=
  if contNeg then maxBuckets / 2 else maxBuckets

/-- Constructor `DDSketch.__init__` with `bucket_strategy=FIXED` (the default, using
`ContiguousStorage`).  The constructor raises `ValueError` unless
`0 < relative_accuracy < 1`; the mapping built from `relative_accuracy` and
`mapping_type` is passed in explicitly.  Note both stores receive the full
`max_buckets`, not `storeMaxBuckets`. -/
def mkSketch (α : ℚ) (m : Mapping) (maxBuckets : ℕ) (contNeg : Bool) : DDSketch :=
  { relativeAccuracy := α
    contNeg := contNeg
    mapping := m
    positiveStore := ContiguousStorage.init maxBuckets
    negativeStore := if contNeg then some (ContiguousStorage.init maxBuckets) else none
    count := 0
    zeroCount := 0
    minValue := none
    maxValue := none }

namespace DDSketch

/-- The min/max tracking block at the top of `insert` (lines 100-108 of
`core.py`).  The `none` cases with `count ≠ 0` are unreachable for sketches
built by the constructor (Python would raise a `TypeError` comparing a
float with `None`); the model keeps the state there. -/
def updateMinMax (s : DDSketch) (v : ℚ) : DDSketch :=
  if s.count = 0 then { s with minValue := some v, maxValue := some v }
  else
    let s' :=
      match s.minValue with
      | some m => if v < m then { s with minValue := some v } else s
      | none => s
    match s'.maxValue with
    | some m => if v > m then { s' with maxValue := some v } else s'
    | none => s'

/-- Method `insert(value)`.  Returns the raised error (if any) together with the
state of the sketch when the call returns or the exception propagates: the
error guard, min/max tracking, the zero counter, and the dispatch on sign.
The `negativeStore = none` case with `cont_neg` true is unreachable for
constructed sketches. -/
def insert (s : DDSketch) (v : ℚ) : Option SkErr × DDSketch :=
  if s.contNeg = false ∧ v < 0 then (some .valueError, s)
  else
    let sMin := updateMinMax s v
    if v = 0 then
      (none, { sMin with zeroCount := sMin.zeroCount + 1, count := sMin.count + 1 })
    else
      let bucketIndex := sMin.mapping.indexOf ((|v| : ℚ) : ℝ)
      if v > 0 then
        (none, { sMin with
                  positiveStore := sMin.positiveStore.add bucketIndex 1
                  count := sMin.count + 1 })
      else
        match sMin.negativeStore with
        | some ns =>
            (none, { sMin with
                      negativeStore := some (ns.add bucketIndex 1)
                      count := sMin.count + 1 })
        | none => (some .attributeError, sMin)

/-- Method `delete(value)`.  `ContiguousStorage.remove` has no `return`
statement, so `deleted = self.positive_store.remove(...)` binds `None`,
which is falsy: `count` is only ever decremented on the zero branch. -/
def delete (s : DDSketch) (v : ℚ) : Option SkErr × DDSketch :=
  if s.count = 0 then (none, s)
  else if v = 0 ∧ s.zeroCount > 0 then
    -- deleted = True
    (none, { s with zeroCount := s.zeroCount - 1, count := s.count - 1 })
  else if v > 0 then
    -- deleted = None (falsy): count is not decremented
    (none, { s with
              positiveStore :=
                s.positiveStore.remove (s.mapping.indexOf ((v : ℚ) : ℝ)) 1 })
  else if v < 0 ∧ s.contNeg then
    match s.negativeStore with
    | some ns =>
        (none, { s with
                  negativeStore := some (ns.remove (s.mapping.indexOf ((-v : ℚ) : ℝ)) 1) })
    | none => (some .attributeError, s)
  else if v < 0 then (some .valueError, s)
  else (none, s)

/-- The cumulative-count walk of `quantile`: visit the given bucket
indices in order, accumulate `get_count`, return the first index whose
cumulative count strictly exceeds the rank. -/
def walkAux (st : ContiguousStorage) (rank : ℚ) : List ℤ → ℤ → Option ℤ
  | [], _ => none
  | idx :: rest, acc =>
      let acc' := acc + st.getCount idx
      if rank < (acc' : ℚ) then some idx else walkAux st rank rest acc'

/-- Ascending walk over `[min_index, max_index]` (positive store). -/
def walkAsc (st : ContiguousStorage) (rank : ℚ) : Option ℤ :=
  match st.minIndex, st.maxIndex with
  | some mi, some ma =>
      walkAux st rank ((List.range (ma - mi + 1).toNat).map fun i => mi + (i : ℤ)) 0
  | _, _ => none

/-- Descending walk over `[max_index, min_index]` (negative store). -/
def walkDesc (st : ContiguousStorage) (rank : ℚ) : Option ℤ :=
  match st.minIndex, st.maxIndex with
  | some mi, some ma =>
      walkAux st rank ((List.range (ma - mi + 1).toNat).map fun i => ma - (i : ℤ)) 0
  | _, _ => none

/-- The tail of `quantile` after the negative store has been handled:
the zero-count test and the ascending walk of the positive store, with the
`float('inf')` fallback. -/
def quantileTail (s : DDSketch) (rank : ℚ) : Except SkErr QVal :=
  if rank < (s.zeroCount : ℚ) then .ok (.val 0)
  else
    match walkAsc s.positiveStore (rank - s.zeroCount) with
    | some idx => .ok (.val (s.mapping.valueOf idx))
    | none => .ok .inf

/-- Method `quantile(q)`.  The source checks *only* emptiness (`count == 0`,
raising `ValueError`); there is no test of `q` against `[0, 1]` even though
the docstring promises one. -/
def quantile (s : DDSketch) (q : ℚ) : Except SkErr QVal :=
  if s.count = 0 then .error .valueError
  else
    let rank := q * ((s.count : ℚ) - 1)
    if s.contNeg then
      match s.negativeStore with
      | none => .error .attributeError -- `None.total_count`; unreachable from the constructor
      | some ns =>
          let negCount := ns.totalCount
          let hit := if rank < (negCount : ℚ) then walkDesc ns rank else none
          match hit with
          | some idx => .ok (.val (-s.mapping.valueOf idx))
          | none => s.quantileTail (rank - negCount)
    else s.quantileTail rank

/-- Modelled from the spec: `DDSketch._get_specific_storage_items` is
called throughout `core.py` (merge, min/max recomputation) and in
`debug_mapping.py` but is missing from the sources.  Per the spec's merge
description ("iterate its present buckets and add(index, count) into
self's corresponding store"), it yields `(bucket index, count)` pairs over
the store's index range in ascending order; the callers filter on
`count > 0` themselves. -/
def storageItems (st : ContiguousStorage) : List (ℤ × ℤ) :=
  match st.minIndex, st.maxIndex with
  | some mi, some ma =>
      (List.range (ma - mi + 1).toNat).map fun i => (mi + (i : ℤ), st.getCount (mi + (i : ℤ)))
  | _, _ => []

/-- The `for bucket_index, count in ...: if count > 0: dst.add(...)` loop
of `merge` over the *negative* store, where the destination store may be
`None` (then the first positive item raises `AttributeError`). -/
def mergeItemsOpt (dst : Option ContiguousStorage) :
    List (ℤ × ℤ) → Except SkErr (Option ContiguousStorage)
  | [] => .ok dst
  | (k, c) :: rest =>
      if c > 0 then
        match dst with
        | none => .error .attributeError
        | some st => mergeItemsOpt (some (st.add k c)) rest
      else mergeItemsOpt dst rest

/-- The same loop over the positive store (destination always present). -/
def mergeItems (dst : ContiguousStorage) : List (ℤ × ℤ) → ContiguousStorage
  | [] => dst
  | (k, c) :: rest => if c > 0 then mergeItems (dst.add k c) rest else mergeItems dst rest

/-- Method `merge(other)`.  The only check is on `relative_accuracy`; zero counts
are merged *before* the stores, so the `AttributeError` raised when the
source holds negatives and `self.negative_store is None` propagates with
`zero_count` already updated. -/
def merge (s o : DDSketch) : Option SkErr × DDSketch :=
  if s.relativeAccuracy ≠ o.relativeAccuracy then (some .valueError, s)
  else
    let s1 := { s with zeroCount := s.zeroCount + o.zeroCount }
    let negStep :=
      match o.negativeStore, o.contNeg with
      | some t, true => mergeItemsOpt s1.negativeStore (storageItems t)
      | _, _ => .ok s1.negativeStore
    match negStep with
    | .error e => (some e, s1)
    | .ok ns =>
        let s2 := { s1 with negativeStore := ns }
        let s3 := { s2 with positiveStore := mergeItems s2.positiveStore (storageItems o.positiveStore) }
        let s4 := { s3 with count := s3.count + o.count }
        let s5 :=
          match o.minValue with
          | some om =>
              match s4.minValue with
              | some sm => if om < sm then { s4 with minValue := some om } else s4
              | none => { s4 with minValue := some om }
          | none => s4
        let s6 :=
          match o.maxValue with
          | some om =>
              match s5.maxValue with
              | some sm => if om > sm then { s5 with maxValue := some om } else s5
              | none => { s5 with maxValue := some om }
          | none => s5
        (none, s6)

end DDSketch

/-! ## Facts about the mapping schemes -/

lemma one_lt_gammaR {α : ℝ} (h0 : 0 < α) (h1 : α < 1) : 1 < gammaR α := by
  rw [gammaR, lt_div_iff₀ (by linarith)]
  linarith

lemma gammaR_pos {α : ℝ} (h0 : 0 < α) (h1 : α < 1) : 0 < gammaR α :=
  lt_trans one_pos (one_lt_gammaR h0 h1)

lemma logIndexOf_one (α : ℝ) : logIndexOf α 1 = 0 := by
  simp [logIndexOf]

lemma gammaR_half : gammaR (1 / 2) = 3 := by
  norm_num [gammaR]

lemma gammaR_third : gammaR (1 / 3) = 2 := by
  norm_num [gammaR]

/-- The mapped value is at most the bucket's upper boundary `γ ^ k`:
`log x ≤ k * log γ` for `k = ⌈log x / log γ⌉`. -/
lemma log_le_ceil_mul {α x : ℝ} (h0 : 0 < α) (h1 : α < 1) :
    Real.log x ≤ (logIndexOf α x : ℝ) * Real.log (gammaR α) := by
  have hγ : 0 < Real.log (gammaR α) := Real.log_pos (one_lt_gammaR h0 h1)
  have := Int.le_ceil (Real.log x / Real.log (gammaR α))
  calc Real.log x = Real.log x / Real.log (gammaR α) * Real.log (gammaR α) := by
        field_simp
    _ ≤ (logIndexOf α x : ℝ) * Real.log (gammaR α) := by
        exact mul_le_mul_of_nonneg_right this hγ.le

/-- Bound `k * log γ < log x + log γ` for `k = ⌈log x / log γ⌉`. -/
lemma ceil_mul_lt_log_add {α x : ℝ} (h0 : 0 < α) (h1 : α < 1) :
    (logIndexOf α x : ℝ) * Real.log (gammaR α) < Real.log x + Real.log (gammaR α) := by
  have hγ : 0 < Real.log (gammaR α) := Real.log_pos (one_lt_gammaR h0 h1)
  have hc : (logIndexOf α x : ℝ) < Real.log x / Real.log (gammaR α) + 1 :=
    Int.ceil_lt_add_one _
  have := mul_lt_mul_of_pos_right hc hγ
  calc (logIndexOf α x : ℝ) * Real.log (gammaR α)
      < (Real.log x / Real.log (gammaR α) + 1) * Real.log (gammaR α) := this
    _ = Real.log x + Real.log (gammaR α) := by field_simp

/-- Round-trip bracket for the logarithmic scheme: the reconstructed value
lies in `[x, γ·x)`. -/
lemma log_roundtrip_bracket {α x : ℝ} (h0 : 0 < α) (h1 : α < 1) (hx : 0 < x) :
    x ≤ logValueOf α (logIndexOf α x) ∧
      logValueOf α (logIndexOf α x) < gammaR α * x := by
  have hγ1 : 1 < gammaR α := one_lt_gammaR h0 h1
  have hγ0 : 0 < gammaR α := gammaR_pos h0 h1
  have hv0 : 0 < logValueOf α (logIndexOf α x) := zpow_pos hγ0 _
  have hlogv : Real.log (logValueOf α (logIndexOf α x)) =
      (logIndexOf α x : ℝ) * Real.log (gammaR α) := by
    rw [logValueOf, Real.log_zpow]
  constructor
  · refine (Real.log_le_log_iff hx hv0).mp ?_
    rw [hlogv]
    exact log_le_ceil_mul h0 h1
  · have hγx : 0 < gammaR α * x := mul_pos hγ0 hx
    refine (Real.log_lt_log_iff hv0 hγx).mp ?_
    rw [hlogv, Real.log_mul hγ0.ne' hx.ne']
    linarith [ceil_mul_lt_log_add (x := x) h0 h1]

/-- The binary exponent extracted by `np.frexp`, as a power bound:
`2 ^ ⌊log2 x⌋ ≤ x`. -/
lemma two_zpow_floor_logb_le {x : ℝ} (hx : 0 < x) :
    (2 : ℝ) ^ ⌊Real.logb 2 x⌋ ≤ x := by
  have h := Int.floor_le (Real.logb 2 x)
  have h2 := (Real.le_logb_iff_rpow_le (by norm_num) hx).mp h
  rwa [Real.rpow_intCast] at h2

/-- Bound `x < 2 ^ (⌊log2 x⌋ + 1)`. -/
lemma lt_two_zpow_floor_logb_succ {x : ℝ} (hx : 0 < x) :
    x < (2 : ℝ) ^ (⌊Real.logb 2 x⌋ + 1) := by
  have h := Int.lt_floor_add_one (Real.logb 2 x)
  have h2 := (Real.logb_lt_iff_lt_rpow (by norm_num) hx).mp h
  have : ((⌊Real.logb 2 x⌋ : ℝ) + 1) = ((⌊Real.logb 2 x⌋ + 1 : ℤ) : ℝ) := by push_cast; ring
  rwa [this, Real.rpow_intCast] at h2

/-- The normalized fraction `m = x / 2 ^ ⌊log2 x⌋` lies in `[1, 2)`. -/
lemma normalized_fraction_mem {x : ℝ} (hx : 0 < x) :
    1 ≤ x / (2 : ℝ) ^ ⌊Real.logb 2 x⌋ ∧ x / (2 : ℝ) ^ ⌊Real.logb 2 x⌋ < 2 := by
  have hp : (0 : ℝ) < (2 : ℝ) ^ ⌊Real.logb 2 x⌋ := zpow_pos (by norm_num) _
  constructor
  · exact (one_le_div hp).mpr (two_zpow_floor_logb_le hx)
  · rw [div_lt_iff₀ hp]
    have := lt_two_zpow_floor_logb_succ hx
    rwa [zpow_add_one₀ (by norm_num : (2:ℝ) ≠ 0), mul_comm] at this

/-- Bracket `⌊log2 x⌋ ≤ linL x` and `linL x < ⌊log2 x⌋ + 1`. -/
lemma linL_bracket {x : ℝ} (hx : 0 < x) :
    (⌊Real.logb 2 x⌋ : ℝ) ≤ linL x ∧ linL x < (⌊Real.logb 2 x⌋ : ℝ) + 1 := by
  obtain ⟨h1, h2⟩ := normalized_fraction_mem hx
  constructor
  · rw [linL]; linarith
  · rw [linL]; linarith

/-- Convexity of `exp`, specialised: `2 ^ (m - 1) ≤ m` on `[1, 2]`. -/
lemma two_rpow_sub_one_le {m : ℝ} (h1 : 1 ≤ m) (h2 : m ≤ 2) :
    (2 : ℝ) ^ (m - 1) ≤ m := by
  have key := convexOn_exp.2 (Set.mem_univ (0 : ℝ)) (Set.mem_univ (Real.log 2))
    (show (0:ℝ) ≤ 2 - m by linarith) (show (0:ℝ) ≤ m - 1 by linarith)
    (show (2 - m) + (m - 1) = 1 by ring)
  simp only [smul_eq_mul, mul_zero, zero_add, Real.exp_zero, mul_one,
    Real.exp_log (by norm_num : (0:ℝ) < 2)] at key
  have h2r : (2 : ℝ) ^ (m - 1) = Real.exp ((m - 1) * Real.log 2) := by
    rw [Real.rpow_def_of_pos (by norm_num), mul_comm]
  rw [h2r]
  calc Real.exp ((m - 1) * Real.log 2) ≤ 2 - m + (m - 1) * 2 := key
    _ = m := by ring

/-- The linear surrogate never exceeds the true base-2 logarithm:
`linL x ≤ log2 x`. -/
lemma linL_le_logb {x : ℝ} (hx : 0 < x) : linL x ≤ Real.logb 2 x := by
  obtain ⟨hm1, hm2⟩ := normalized_fraction_mem hx
  have hp : (0 : ℝ) < (2 : ℝ) ^ ⌊Real.logb 2 x⌋ := zpow_pos (by norm_num) _
  have hlog2e : Real.logb 2 ((2 : ℝ) ^ ⌊Real.logb 2 x⌋) = (⌊Real.logb 2 x⌋ : ℝ) := by
    rw [← Real.rpow_intCast]
    exact Real.logb_rpow (by norm_num) (by norm_num)
  have hlogm : Real.logb 2 (x / (2 : ℝ) ^ ⌊Real.logb 2 x⌋) =
      Real.logb 2 x - (⌊Real.logb 2 x⌋ : ℝ) := by
    rw [Real.logb_div hx.ne' hp.ne', hlog2e]
  have hmlog : x / (2 : ℝ) ^ ⌊Real.logb 2 x⌋ - 1 ≤
      Real.logb 2 (x / (2 : ℝ) ^ ⌊Real.logb 2 x⌋) :=
    (Real.le_logb_iff_rpow_le (by norm_num) (by positivity)).mpr
      (two_rpow_sub_one_le hm1 hm2.le)
  rw [linL]
  linarith

/-- Round-trip bracket for the linear-interpolation scheme: the
reconstructed value lies in `(x/2, γ·x)`. -/
lemma lin_roundtrip_bracket {α x : ℝ} (h0 : 0 < α) (h1 : α < 1) (hx : 0 < x) :
    x / 2 < linValueOf α (linIndexOf α x) ∧
      linValueOf α (linIndexOf α x) < gammaR α * x := by
  have hγ1 : 1 < gammaR α := one_lt_gammaR h0 h1
  have hγ0 : 0 < gammaR α := gammaR_pos h0 h1
  have hc : 0 < Real.logb 2 (gammaR α) := Real.logb_pos (by norm_num) hγ1
  set c := Real.logb 2 (gammaR α) with hcdef
  set k := linIndexOf α x with hk
  have hk1 : linL x ≤ (k : ℝ) * c := by
    have := Int.le_ceil (linL x / c)
    calc linL x = linL x / c * c := by field_simp
      _ ≤ (k : ℝ) * c := mul_le_mul_of_nonneg_right this hc.le
  have hk2 : (k : ℝ) * c < linL x + c := by
    have hlt : (k : ℝ) < linL x / c + 1 := Int.ceil_lt_add_one _
    calc (k : ℝ) * c < (linL x / c + 1) * c := mul_lt_mul_of_pos_right hlt hc
      _ = linL x + c := by field_simp
  have hv0 : 0 < linValueOf α k := zpow_pos hγ0 _
  have hlogbv : Real.logb 2 (linValueOf α k) = (k : ℝ) * c := by
    rw [linValueOf, hcdef, Real.logb, Real.logb, Real.log_zpow]
    ring
  obtain ⟨hel, heu⟩ := linL_bracket hx
  constructor
  · have hx2 : (0 : ℝ) < x / 2 := by positivity
    refine (Real.logb_lt_logb_iff (b := 2) (by norm_num) hx2 hv0).mp ?_
    rw [hlogbv, Real.logb_div hx.ne' (by norm_num : (2:ℝ) ≠ 0),
      Real.logb_self_eq_one (by norm_num)]
    have hfl := Int.lt_floor_add_one (Real.logb 2 x)
    linarith
  · have hγx : 0 < gammaR α * x := mul_pos hγ0 hx
    refine (Real.logb_lt_logb_iff (b := 2) (by norm_num) hv0 hγx).mp ?_
    rw [hlogbv, Real.logb_mul hγ0.ne' hx.ne']
    have := linL_le_logb hx
    linarith

/-- The linear surrogate is monotone. -/
lemma linL_mono {x₁ x₂ : ℝ} (hx : 0 < x₁) (hle : x₁ ≤ x₂) : linL x₁ ≤ linL x₂ := by
  have hx2 : 0 < x₂ := lt_of_lt_of_le hx hle
  have he : ⌊Real.logb 2 x₁⌋ ≤ ⌊Real.logb 2 x₂⌋ :=
    Int.floor_mono (Real.logb_le_logb_of_le (by norm_num) hx hle)
  rcases eq_or_lt_of_le he with heq | hlt
  · have hp : (0 : ℝ) < (2 : ℝ) ^ ⌊Real.logb 2 x₁⌋ := zpow_pos (by norm_num) _
    rw [linL, linL, ← heq]
    have : x₁ / (2 : ℝ) ^ ⌊Real.logb 2 x₁⌋ ≤ x₂ / (2 : ℝ) ^ ⌊Real.logb 2 x₁⌋ := by
      gcongr
    linarith
  · have h1 := (linL_bracket hx).2
    have h2 := (linL_bracket hx2).1
    have : (⌊Real.logb 2 x₁⌋ : ℝ) + 1 ≤ (⌊Real.logb 2 x₂⌋ : ℝ) := by
      exact_mod_cast hlt
    linarith

/-! ## Claim theorems: mapping layer -/

/-- Claim C1 is false as stated: for the logarithmic scheme with
`α = 1/2` (so `γ = 3`) and `x = 3/2`, the reconstructed value is `3` and
the round-trip relative error is `1 > α`. -/
theorem claim1_counterexample :
    ¬(|logValueOf (1/2) (logIndexOf (1/2) (3/2)) - 3/2| / (3/2) ≤ (1/2 : ℝ)) := by
  have hγ : gammaR (1/2 : ℝ) = 3 := gammaR_half
  have hidx : logIndexOf (1/2) (3/2) = 1 := by
    rw [logIndexOf, hγ]
    rw [Int.ceil_eq_iff]
    have hl3 : 0 < Real.log 3 := Real.log_pos (by norm_num)
    have hl32 : 0 < Real.log (3/2) := Real.log_pos (by norm_num)
    constructor
    · push_cast
      norm_num
      exact div_pos hl32 hl3
    · push_cast
      rw [div_le_one hl3]
      exact (Real.log_le_log_iff (by norm_num) (by norm_num)).mpr (by norm_num)
  rw [hidx, logValueOf, hγ]
  rw [zpow_one, abs_of_nonneg (by norm_num : (0:ℝ) ≤ 3 - 3/2)]
  norm_num

/-- Claim C1, amended to what the code achieves.  `compute_value_from_index`
returns the bucket's upper boundary `γ^k`, so the logarithmic round trip
satisfies `x ≤ v < γ·x`, a relative error of at most `2α/(1-α)` (not `α`);
the linear-interpolation round trip satisfies `x/2 < v < γ·x` (its surrogate
underestimates `log2` by up to `≈ 0.086`, so no `α`-proportional bound
holds for it). -/
theorem claim1_roundtrip_bounds (α x : ℝ) (h0 : 0 < α) (h1 : α < 1) (hx : 0 < x) :
    (x ≤ logValueOf α (logIndexOf α x) ∧
      logValueOf α (logIndexOf α x) < gammaR α * x ∧
      |logValueOf α (logIndexOf α x) - x| / x ≤ 2 * α / (1 - α)) ∧
    (x / 2 < linValueOf α (linIndexOf α x) ∧
      linValueOf α (linIndexOf α x) < gammaR α * x) := by
  obtain ⟨hl1, hl2⟩ := log_roundtrip_bracket h0 h1 hx
  refine ⟨⟨hl1, hl2, ?_⟩, lin_roundtrip_bracket h0 h1 hx⟩
  have hγm1 : gammaR α - 1 = 2 * α / (1 - α) := by
    have hne : (1 : ℝ) - α ≠ 0 := by linarith
    rw [gammaR, div_sub_one hne]
    congr 1
    ring
  rw [abs_of_nonneg (by linarith), div_le_iff₀ hx, ← hγm1]
  nlinarith

/-- Witness for `claim1_roundtrip_bounds` at `α = 1/2`, `x = 3`. -/
theorem claim1_roundtrip_bounds_witness :
    (0 : ℝ) < 1/2 ∧ (1/2 : ℝ) < 1 ∧ (0 : ℝ) < 3 ∧
      ((3 : ℝ) ≤ logValueOf (1/2) (logIndexOf (1/2) 3) ∧
        logValueOf (1/2) (logIndexOf (1/2) 3) < gammaR (1/2) * 3 ∧
        |logValueOf (1/2) (logIndexOf (1/2) 3) - 3| / 3 ≤ 2 * (1/2) / (1 - 1/2)) ∧
      ((3 : ℝ) / 2 < linValueOf (1/2) (linIndexOf (1/2) 3) ∧
        linValueOf (1/2) (linIndexOf (1/2) 3) < gammaR (1/2) * 3) :=
  ⟨by norm_num, by norm_num, by norm_num,
    claim1_roundtrip_bounds (1/2) 3 (by norm_num) (by norm_num) (by norm_num)⟩

/-- Claim C8 is false as stated: with `α = 1/3` (so `γ = 2`) and `k = 0`,
`compute_value_from_index` returns `1 = γ^0`, not the spec's representative
`γ^0 · 2/(1+γ) = 2/3`. -/
theorem claim8_counterexample :
    logValueOf (1/3) 0 ≠ gammaR (1/3) ^ (0 : ℤ) * (2 / (1 + gammaR (1/3))) := by
  rw [logValueOf, gammaR_third, zpow_zero]
  norm_num

/-- Claim C8, amended: `compute_value_from_index(k)` returns the bucket's
upper boundary `γ^k` (as its own docstring states), not `γ^k · 2/(1+γ)`;
this representative still satisfies the round-trip identity
`compute_bucket_index(compute_value_from_index(k)) = k`. -/
theorem claim8_representative (α : ℝ) (k : ℤ) (h0 : 0 < α) (h1 : α < 1) :
    logValueOf α k = gammaR α ^ k ∧ logIndexOf α (logValueOf α k) = k := by
  refine ⟨rfl, ?_⟩
  rw [logIndexOf, logValueOf, Real.log_zpow, mul_div_assoc,
    div_self (Real.log_pos (one_lt_gammaR h0 h1)).ne', mul_one, Int.ceil_intCast]

/-- Witness for `claim8_representative` at `α = 1/2`, `k = 5`. -/
theorem claim8_representative_witness :
    (0 : ℝ) < 1/2 ∧ (1/2 : ℝ) < 1 ∧
      (logValueOf (1/2) 5 = gammaR (1/2) ^ (5 : ℤ) ∧
        logIndexOf (1/2) (logValueOf (1/2) 5) = 5) :=
  ⟨by norm_num, by norm_num, claim8_representative (1/2) 5 (by norm_num) (by norm_num)⟩

/-- Claim C9: both `compute_bucket_index` implementations are monotone
non-decreasing on positive values. -/
theorem claim9_monotone (α x₁ x₂ : ℝ) (h0 : 0 < α) (h1 : α < 1)
    (hx : 0 < x₁) (hlt : x₁ < x₂) :
    logIndexOf α x₁ ≤ logIndexOf α x₂ ∧ linIndexOf α x₁ ≤ linIndexOf α x₂ := by
  have hγ : 0 < Real.log (gammaR α) := Real.log_pos (one_lt_gammaR h0 h1)
  have hc : 0 < Real.logb 2 (gammaR α) := Real.logb_pos (by norm_num) (one_lt_gammaR h0 h1)
  have hlog : Real.log x₁ ≤ Real.log x₂ :=
    (Real.log_le_log_iff hx (hx.trans hlt)).mpr hlt.le
  constructor
  · apply Int.ceil_mono
    gcongr
  · apply Int.ceil_mono
    have := linL_mono hx hlt.le
    gcongr

/-- Witness for `claim9_monotone` at `α = 1/2`, `x₁ = 1`, `x₂ = 2`. -/
theorem claim9_monotone_witness :
    (0 : ℝ) < 1/2 ∧ (1/2 : ℝ) < 1 ∧ (0 : ℝ) < 1 ∧ (1 : ℝ) < 2 ∧
      (logIndexOf (1/2) 1 ≤ logIndexOf (1/2) 2 ∧
        linIndexOf (1/2) 1 ≤ linIndexOf (1/2) 2) :=
  ⟨by norm_num, by norm_num, by norm_num, by norm_num,
    claim9_monotone (1/2) 1 2 (by norm_num) (by norm_num) (by norm_num) (by norm_num)⟩

/-! ## Concrete sketches for the scenario claims -/

/-- Construction `DDSketch(relative_accuracy=0.01)` with all defaults. -/
noncomputable def sketch001 : DDSketch :=
  mkSketch (1/100) (logMapping ((1 : ℝ)/100)) 2048 true

/-- State of `sketch001` after `insert(1.0)`. -/
noncomputable def sketchIns1 : DDSketch := (sketch001.insert 1).2

/-- State of `sketchIns1` after `delete(1.0)`. -/
noncomputable def sketchDel1 : DDSketch := (sketchIns1.delete 1).2

/-- Construction `DDSketch(relative_accuracy=0.01, cont_neg=False)`. -/
noncomputable def sketchNoNeg : DDSketch :=
  mkSketch (1/100) (logMapping ((1 : ℝ)/100)) 2048 false

/-- Construction `DDSketch(relative_accuracy=0.01)` after `insert(0.0); insert(-1.0)`:
one zero and one negative observation. -/
noncomputable def sketchZeroNeg : DDSketch :=
  (((mkSketch (1/100) (logMapping ((1 : ℝ)/100)) 2048 true).insert 0).2.insert (-1)).2

lemma sketchIns1_eq : sketchIns1 =
    { relativeAccuracy := 1/100, contNeg := true, mapping := logMapping ((1 : ℝ)/100),
      positiveStore := (ContiguousStorage.init 2048).add 0 1,
      negativeStore := some (ContiguousStorage.init 2048),
      count := 1, zeroCount := 0, minValue := some 1, maxValue := some 1 } := by
  simp [sketchIns1, sketch001, DDSketch.insert, DDSketch.updateMinMax, mkSketch, logMapping,
    logIndexOf_one]

lemma sketchDel1_eq : sketchDel1 =
    { relativeAccuracy := 1/100, contNeg := true, mapping := logMapping ((1 : ℝ)/100),
      positiveStore := ((ContiguousStorage.init 2048).add 0 1).remove 0 1,
      negativeStore := some (ContiguousStorage.init 2048),
      count := 1, zeroCount := 0, minValue := some 1, maxValue := some 1 } := by
  rw [sketchDel1, sketchIns1_eq]
  simp [DDSketch.delete, logMapping, logIndexOf_one]

lemma sketchZeroNeg_eq : sketchZeroNeg =
    { relativeAccuracy := 1/100, contNeg := true, mapping := logMapping ((1 : ℝ)/100),
      positiveStore := ContiguousStorage.init 2048,
      negativeStore := some ((ContiguousStorage.init 2048).add 0 1),
      count := 2, zeroCount := 1, minValue := some (-1), maxValue := some 0 } := by
  simp [sketchZeroNeg, DDSketch.insert, DDSketch.updateMinMax, mkSketch, logMapping,
    logIndexOf_one]
  norm_num
  rw [logIndexOf_one]

/-- The min/max tracking never touches the stores or the counters. -/
lemma updateMinMax_negativeStore (s : DDSketch) (v : ℚ) :
    (s.updateMinMax v).negativeStore = s.negativeStore := by
  rw [DDSketch.updateMinMax]
  repeat' first
  | rfl
  | split
  | dsimp only

/-- Lemma: `mergeItemsOpt` with an absent destination store raises as soon as the
item list holds a positive count. -/
lemma mergeItemsOpt_none_error :
    ∀ (items : List (ℤ × ℤ)), (∃ p ∈ items, 0 < p.2) →
      DDSketch.mergeItemsOpt none items = .error .attributeError := by
  intro items
  induction items with
  | nil => rintro ⟨p, hp, _⟩; exact absurd hp (List.not_mem_nil p)
  | cons hd tl ih =>
      rintro ⟨p, hp, hpos⟩
      rw [DDSketch.mergeItemsOpt]
      by_cases hc : hd.2 > 0
      · simp only [hc, if_pos]
      · have : p ∈ tl := by
          rcases List.mem_cons.mp hp with rfl | h
          · exact absurd hpos hc
          · exact h
        simp only [if_neg hc]
        exact ih ⟨p, this, hpos⟩

/-- A merge whose source holds negatives while the destination has no
negative store crashes with `AttributeError` after the zero counts have
been merged: the returned state is the destination with only `zero_count`
updated. -/
lemma merge_crash_state (s o : DDSketch) (t : ContiguousStorage)
    (hacc : s.relativeAccuracy = o.relativeAccuracy)
    (hns : s.negativeStore = none) (hcn : o.contNeg = true)
    (hot : o.negativeStore = some t)
    (hpos : ∃ p ∈ DDSketch.storageItems t, 0 < p.2) :
    s.merge o = (some .attributeError, { s with zeroCount := s.zeroCount + o.zeroCount }) := by
  rw [DDSketch.merge, if_neg (by simp [hacc])]
  simp only [hot, hcn, hns]
  rw [mergeItemsOpt_none_error _ hpos]

/-! ## Claim theorems: sketch layer -/

/-- Claim C2: the code disagrees with it.  After `insert(1.0)` then
`delete(1.0)` on a fresh `DDSketch(0.01)`, `count` is still 1 (the bucket
was removed from the store, but `ContiguousStorage.remove` returns `None`,
so `delete` never decrements `count`), and `quantile(0.5)` does not raise
the empty-sketch error — it walks the emptied store and returns
`float('inf')`. -/
theorem claim2_delete_keeps_count :
    sketchDel1.count = 1 ∧ sketchDel1.quantile (1/2) = .ok .inf := by
  rw [sketchDel1_eq]
  have h1 : (ContiguousStorage.init 2048).totalCount = 0 := rfl
  have h2 : (((ContiguousStorage.init 2048).add 0 1).remove 0 1).minIndex = none := by decide
  have h3 : (((ContiguousStorage.init 2048).add 0 1).remove 0 1).maxIndex = none := by decide
  refine ⟨rfl, ?_⟩
  simp [DDSketch.quantile, DDSketch.quantileTail, DDSketch.walkAsc, h1, h2, h3]

/-- Claim C3: the first half is false on the code.  `quantile` has no
range check on `q` (contradicting its docstring and
`test_quantile_edge_cases`): on a sketch holding the single value `1.0`,
`quantile(1.1)` returns `1.0` instead of raising.  The second half holds:
on the empty sketch, `quantile` raises `ValueError`. -/
theorem claim3_no_quantile_range_check :
    sketchIns1.quantile (11/10) = .ok (.val 1) ∧
      sketch001.quantile (11/10) = .error .valueError := by
  constructor
  · rw [sketchIns1_eq]
    have hw : DDSketch.walkAsc ((ContiguousStorage.init 2048).add 0 1) 0 = some 0 := by decide
    have h1 : (ContiguousStorage.init 2048).totalCount = 0 := rfl
    simp [DDSketch.quantile, DDSketch.quantileTail, hw, h1, logMapping, logValueOf]
  · simp [DDSketch.quantile, sketch001, mkSketch]

/-- Claim C5 is false as stated: merging `sketchZeroNeg` (which holds the
negative observation `-1.0`) into `sketchNoNeg` (built with
`cont_neg=False`) does fail, but with the unchecked `AttributeError` from
`None.add`, not with the checked incompatible-merge `ValueError`. -/
theorem claim5_counterexample :
    (sketchNoNeg.merge sketchZeroNeg).1 = some SkErr.attributeError ∧
      (sketchNoNeg.merge sketchZeroNeg).1 ≠ some SkErr.valueError := by
  have h := merge_crash_state sketchNoNeg sketchZeroNeg
    ((ContiguousStorage.init 2048).add 0 1) (by rw [sketchZeroNeg_eq]; rfl) (by rw [sketchNoNeg]; rfl)
    (by rw [sketchZeroNeg_eq]) (by rw [sketchZeroNeg_eq])
    ⟨(0, 1), by decide, by decide⟩
  rw [h]
  simp

/-- Claim C5, amended: such a merge fails, but (when the relative
accuracies agree, so that the accuracy check does not fire first) with an
unchecked `AttributeError` from calling `add` on the absent negative
store, not with the incompatible-merge error; the checked `ValueError` is
raised only for differing relative accuracies. -/
theorem claim5_merge_attribute_error (s o : DDSketch) (t : ContiguousStorage)
    (hacc : s.relativeAccuracy = o.relativeAccuracy)
    (hns : s.negativeStore = none) (hcn : o.contNeg = true)
    (hot : o.negativeStore = some t)
    (hpos : ∃ p ∈ DDSketch.storageItems t, 0 < p.2) :
    (s.merge o).1 = some SkErr.attributeError ∧
      (s.merge o).1 ≠ some SkErr.valueError := by
  rw [merge_crash_state s o t hacc hns hcn hot hpos]
  simp

/-- Witness for `claim5_merge_attribute_error` at the concrete pair
`sketchNoNeg`, `sketchZeroNeg`. -/
theorem claim5_merge_attribute_error_witness :
    (sketchNoNeg.merge sketchZeroNeg).1 = some SkErr.attributeError :=
  (claim5_merge_attribute_error sketchNoNeg sketchZeroNeg
    ((ContiguousStorage.init 2048).add 0 1) (by rw [sketchZeroNeg_eq]; rfl) (by rw [sketchNoNeg]; rfl)
    (by rw [sketchZeroNeg_eq]) (by rw [sketchZeroNeg_eq])
    ⟨(0, 1), by decide, by decide⟩).1

/-- Claim C6 is false as stated: the merge of `sketchZeroNeg` into
`sketchNoNeg` fails, yet the destination's observable `zero_count` has
changed from 0 to 1 by the time the exception propagates. -/
theorem claim6_counterexample :
    (sketchNoNeg.merge sketchZeroNeg).1.isSome = true ∧
      (sketchNoNeg.merge sketchZeroNeg).2.zeroCount ≠ sketchNoNeg.zeroCount := by
  have h := merge_crash_state sketchNoNeg sketchZeroNeg
    ((ContiguousStorage.init 2048).add 0 1) (by rw [sketchZeroNeg_eq]; rfl) (by rw [sketchNoNeg]; rfl)
    (by rw [sketchZeroNeg_eq]) (by rw [sketchZeroNeg_eq])
    ⟨(0, 1), by decide, by decide⟩
  rw [h]
  constructor
  · rfl
  · rw [sketchZeroNeg_eq]
    simp [sketchNoNeg, mkSketch]

/-- Claim C6, amended: a failing `insert` does leave the sketch unchanged,
as does a `merge` that fails the relative-accuracy check; but a `merge`
that fails because the source holds negatives the destination cannot
represent leaves the destination with `zero_count` already merged. -/
theorem claim6_failure_atomicity :
    (∀ (s : DDSketch) (v : ℚ) (e : SkErr),
      (s.contNeg = true → s.negativeStore.isSome) →
      (s.insert v).1 = some e → (s.insert v).2 = s) ∧
    (∀ s o : DDSketch, s.relativeAccuracy ≠ o.relativeAccuracy →
      s.merge o = (some SkErr.valueError, s)) ∧
    (∀ (s o : DDSketch) (t : ContiguousStorage),
      s.relativeAccuracy = o.relativeAccuracy → s.negativeStore = none →
      o.contNeg = true → o.negativeStore = some t →
      (∃ p ∈ DDSketch.storageItems t, 0 < p.2) →
      (s.merge o).2 = { s with zeroCount := s.zeroCount + o.zeroCount }) := by
  refine ⟨?_, ?_, ?_⟩
  · intro s v e hwf h
    by_cases hg : s.contNeg = false ∧ v < 0
    · simp [DDSketch.insert, hg]
    · exfalso
      rw [DDSketch.insert, if_neg hg] at h
      rcases lt_trichotomy v 0 with hv | hv | hv
      · have hcn : s.contNeg = true := by
          rcases s.contNeg.eq_false_or_eq_true with ht | hf
          · exact ht
          · exact absurd ⟨hf, hv⟩ hg
        obtain ⟨ns, hns⟩ := Option.isSome_iff_exists.mp (hwf hcn)
        have hvne : ¬v = 0 := hv.ne
        have hvnp : ¬v > 0 := by linarith
        simp only [if_neg hvne, if_neg hvnp] at h
        rw [updateMinMax_negativeStore, hns] at h
        simp at h
      · simp [hv] at h
      · simp [if_neg (by linarith : ¬v = 0), if_pos hv] at h
  · intro s o h
    rw [DDSketch.merge, if_pos (by simpa using h)]
  · intro s o t hacc hns hcn hot hpos
    rw [merge_crash_state s o t hacc hns hcn hot hpos]

/-- Witness for `claim6_failure_atomicity` at concrete inputs: a rejected
`insert(-1.0)` on `sketchNoNeg`; a merge of differing accuracies; and the
crashing merge of `sketchZeroNeg` into `sketchNoNeg`. -/
theorem claim6_failure_atomicity_witness :
    (sketchNoNeg.insert (-1)).2 = sketchNoNeg ∧
      sketchNoNeg.merge (mkSketch (1/50) (logMapping ((1 : ℝ)/50)) 2048 true) =
        (some SkErr.valueError, sketchNoNeg) ∧
      (sketchNoNeg.merge sketchZeroNeg).2 =
        { sketchNoNeg with zeroCount := sketchNoNeg.zeroCount + sketchZeroNeg.zeroCount } := by
  refine ⟨?_, ?_, ?_⟩
  · exact claim6_failure_atomicity.1 sketchNoNeg (-1) SkErr.valueError
      (by intro h; rw [sketchNoNeg] at h; simp [mkSketch] at h)
      (by simp [sketchNoNeg, DDSketch.insert, DDSketch.updateMinMax, mkSketch])
  · exact claim6_failure_atomicity.2.1 sketchNoNeg _
      (by rw [sketchNoNeg]; simp [mkSketch])
  · exact claim6_failure_atomicity.2.2 sketchNoNeg sketchZeroNeg
      ((ContiguousStorage.init 2048).add 0 1) (by rw [sketchZeroNeg_eq]; rfl)
      (by rw [sketchNoNeg]; rfl) (by rw [sketchZeroNeg_eq]) (by rw [sketchZeroNeg_eq])
      ⟨(0, 1), by decide, by decide⟩

/-- Claim C7 is false as stated: with negatives enabled and the default
`max_buckets=2048`, each store is created with cap 2048, not 1024. -/
theorem claim7_counterexample :
    (mkSketch (1/100) (logMapping ((1 : ℝ)/100)) 2048 true).positiveStore.maxBuckets ≠
      ((2048 / 2 : ℕ) : ℤ) := by
  decide

/-- Claim C7, amended: `__init__` computes the halved value
`store_max_buckets = max_buckets // 2` when negatives are enabled, but
never uses it — both stores are constructed with the full `max_buckets`. -/
theorem claim7_full_cap (α : ℚ) (m : Mapping) (M : ℕ) (_hM : 0 < M) :
    (mkSketch α m M true).positiveStore.maxBuckets = (M : ℤ) ∧
      (mkSketch α m M true).negativeStore = some (ContiguousStorage.init M) ∧
      storeMaxBuckets M true = M / 2 := by
  exact ⟨rfl, by simp [mkSketch], rfl⟩

/-- Witness for `claim7_full_cap` at `M = 2048`. -/
theorem claim7_full_cap_witness :
    0 < 2048 ∧
      (mkSketch (1/100) (logMapping ((1 : ℝ)/100)) 2048 true).positiveStore.maxBuckets =
        ((2048 : ℕ) : ℤ) :=
  ⟨by norm_num,
    (claim7_full_cap (1/100) (logMapping ((1 : ℝ)/100)) 2048 (by norm_num)).1⟩

/-- Claim C4: the code disagrees with it.  On `ContiguousStorage(32)`,
`add(0); add(5)` yields `total_count = 2` but the counts summed over the
present buckets are 1 — `_center_data` applies the shift to both `head`
and `offset` (each of which enters `_get_position` additively), so the
count written for bucket 0 is no longer addressable after re-centering
(`get_count(0) = 0`). -/
theorem claim4_conservation_violated :
    (((ContiguousStorage.init 32).add 0 1).add 5 1).totalCount = 2 ∧
      (((ContiguousStorage.init 32).add 0 1).add 5 1).presentSum = 1 ∧
      (((ContiguousStorage.init 32).add 0 1).add 5 1).getCount 0 = 0 := by
  decide

/-! ## Claim C10: clamping and nonnegativity of counts and total

The slots of `self.counts` are numpy `int64` values: the in-place
additions in `add` and the collapse paths, and the subtraction in
`remove`, wrap at `2^63` (modelled by `wrap64`), so a bucket count *can*
become negative by overflow.  `total_count` is a plain Python integer and
never wraps. -/

namespace ContiguousStorage

/-- One bucket-store operation; claim C10 quantifies over sequences of
these. -/
inductive StoreOp where
  | addOp (k c : ℤ)
  | removeOp (k c : ℤ)
  | mergeOp (o : ContiguousStorage)

/-- Run one operation on the store. -/
def applyOp (s : ContiguousStorage) : StoreOp → ContiguousStorage
  | .addOp k c => s.add k c
  | .removeOp k c => s.remove k c
  | .mergeOp o => s.merge o

/-- Every slot of the counts array and the running `total_count` are
nonnegative — the property claim C10 asserts. -/
def Nonneg (s : ContiguousStorage) : Prop :=
  (∀ p, 0 ≤ s.counts p) ∧ 0 ≤ s.totalCount

/-- Sum of the int64 slots over the physical array. -/
def slotSum (s : ContiguousStorage) : ℤ :=
  ∑ i in Finset.Ico (0 : ℤ) (s.size : ℤ), s.counts i

/-- Structural ranges every operation maintains: a positive array length
and a head position inside the array. -/
def Ranged (s : ContiguousStorage) : Prop :=
  0 < s.size ∧ 0 ≤ s.head ∧ s.head < (s.size : ℤ)

/-- The overflow-free invariant: structural ranges, nonnegative slots
whose total stays below the int64 maximum (so no in-place addition
wraps), and a nonnegative running total. -/
def SafeState (s : ContiguousStorage) : Prop :=
  Ranged s ∧ (∀ p, 0 ≤ s.counts p) ∧ slotSum s < 2 ^ 63 ∧ 0 ≤ s.totalCount

/-- Everything a `merge` can feed into the destination's int64 slots: the
positive parts of the source slots its loop visits. -/
def mergeTotal (o : ContiguousStorage) : ℤ :=
  match o.minIndex, o.maxIndex with
  | some mi, some ma =>
      ((List.range (ma - mi + 1).toNat).map
        (fun (i : ℕ) => max (o.counts ((o.head + (i : ℤ)) % (o.size : ℤ))) 0)).sum
  | _, _ => 0

/-- Per-operation overflow guard: what an operation adds to the int64
slots keeps the running slot total below `2^63`, and a `remove` count
stays inside the int64 range (numpy raises or promotes, depending on
version, when the subtrahend itself exceeds int64). -/
def stepOK (s : ContiguousStorage) : StoreOp → Prop
  | .addOp _ c => slotSum s + max c 0 < 2 ^ 63
  | .removeOp _ c => c < 2 ^ 63
  | .mergeOp o => slotSum s + mergeTotal o < 2 ^ 63

/-- A sequence of operations none of which overflows the int64 slots. -/
def SafeOps : ContiguousStorage → List StoreOp → Prop
  | _, [] => True
  | s, op :: rest => stepOK s op ∧ SafeOps (s.applyOp op) rest

lemma wrap64_eq_self {n : ℤ} (h1 : -(2 ^ 63) ≤ n) (h2 : n < 2 ^ 63) : wrap64 n = n := by
  rw [wrap64, Int.emod_eq_of_lt (by omega) (by omega)]
  ring

lemma nonneg_update {f : ℤ → ℤ} (hf : ∀ p, 0 ≤ f p) (a : ℤ) {b : ℤ} (hb : 0 ≤ b) :
    ∀ p, 0 ≤ Function.update f a b p := by
  intro p
  rcases eq_or_ne p a with rfl | hne
  · rwa [Function.update_same]
  · rw [Function.update_noteq hne]
    exact hf p

lemma mem_Ico_emod {n : ℤ} (hn : 0 < n) (x : ℤ) : x % n ∈ Finset.Ico (0 : ℤ) n := by
  rw [Finset.mem_Ico]
  exact ⟨Int.emod_nonneg x hn.ne', Int.emod_lt_of_pos x hn⟩

lemma size_cast_pos {s : ContiguousStorage} (h : Ranged s) : 0 < (s.size : ℤ) := by
  exact_mod_cast h.1

lemma getPosition_mem {s : ContiguousStorage} (h : Ranged s) (k : ℤ) :
    s.getPosition k ∈ Finset.Ico (0 : ℤ) (s.size : ℤ) := by
  rw [getPosition]
  split
  · rw [Finset.mem_Ico]
    exact ⟨le_rfl, size_cast_pos h⟩
  · exact mem_Ico_emod (size_cast_pos h) _

lemma slotSum_nonneg {s : ContiguousStorage} (hpos : ∀ p, 0 ≤ s.counts p) :
    0 ≤ slotSum s :=
  Finset.sum_nonneg fun i _ => hpos i

lemma counts_le_slotSum {s : ContiguousStorage} (hpos : ∀ p, 0 ≤ s.counts p)
    {p : ℤ} (hp : p ∈ Finset.Ico (0 : ℤ) (s.size : ℤ)) : s.counts p ≤ slotSum s :=
  Finset.single_le_sum (fun i _ => hpos i) hp

/-- Moving one int64 slot into another (`counts[pn] += counts[pm];
counts[pm] = 0`, the collapse primitive) keeps slots nonnegative and does
not increase their sum, provided the sum starts below `2^63`: when the two
positions coincide the wrapped intermediate is overwritten by `0`, and
when they differ the sum bound rules the wrap out. -/
lemma collapse_move_spec {f : ℤ → ℤ} (hf : ∀ p, 0 ≤ f p) {n pn pm : ℤ}
    (hpn : pn ∈ Finset.Ico (0 : ℤ) n) (hpm : pm ∈ Finset.Ico (0 : ℤ) n)
    (hsum : ∑ i in Finset.Ico (0 : ℤ) n, f i < 2 ^ 63) :
    (∀ p, 0 ≤ Function.update (Function.update f pn (wrap64 (f pn + f pm))) pm 0 p) ∧
      ∑ i in Finset.Ico (0 : ℤ) n,
          Function.update (Function.update f pn (wrap64 (f pn + f pm))) pm 0 i ≤
        ∑ i in Finset.Ico (0 : ℤ) n, f i := by
  rcases eq_or_ne pm pn with rfl | hne
  · rw [Function.update_idem]
    refine ⟨nonneg_update hf _ le_rfl, ?_⟩
    rw [Finset.sum_update_of_mem hpm, Finset.sdiff_singleton_eq_erase]
    have h1 := Finset.add_sum_erase _ f hpm
    have h2 := hf pm
    linarith
  · have hpair : f pn + f pm ≤ ∑ i in Finset.Ico (0 : ℤ) n, f i := by
      have hq : pm ∈ (Finset.Ico (0 : ℤ) n).erase pn :=
        Finset.mem_erase.mpr ⟨hne, hpm⟩
      have h1 : f pm ≤ ∑ i in (Finset.Ico (0 : ℤ) n).erase pn, f i :=
        Finset.single_le_sum (fun i _ => hf i) hq
      have h2 := Finset.add_sum_erase _ f hpn
      linarith
    have hwrap : wrap64 (f pn + f pm) = f pn + f pm :=
      wrap64_eq_self (by linarith [hf pn, hf pm]) (lt_of_le_of_lt hpair hsum)
    constructor
    · intro p
      rcases eq_or_ne p pm with rfl | hp1
      · rw [Function.update_same]
      · rw [Function.update_noteq hp1]
        rcases eq_or_ne p pn with rfl | hp2
        · rw [Function.update_same, hwrap]
          exact add_nonneg (hf _) (hf _)
        · rw [Function.update_noteq hp2]
          exact hf p
    · rw [Finset.sum_update_of_mem hpm, Finset.sdiff_singleton_eq_erase]
      have hpn2 : pn ∈ (Finset.Ico (0 : ℤ) n).erase pm :=
        Finset.mem_erase.mpr ⟨hne.symm, hpn⟩
      rw [Finset.sum_update_of_mem hpn2, Finset.sdiff_singleton_eq_erase, hwrap]
      have e1 := Finset.add_sum_erase _ f hpm
      have e2 := Finset.add_sum_erase _ f hpn2
      linarith

/-- Bundle carried through the internal stages of `add`: ranges intact,
slots nonnegative, slot total bounded by `b`, and `size` / `total_count`
untouched. -/
def StageOK (s t : ContiguousStorage) (b : ℤ) : Prop :=
  Ranged t ∧ (∀ p, 0 ≤ t.counts p) ∧ slotSum t ≤ b ∧
    t.size = s.size ∧ t.totalCount = s.totalCount

lemma centerData_stage {s : ContiguousStorage} (h : Ranged s)
    (hpos : ∀ p, 0 ≤ s.counts p) (a b : ℤ) :
    StageOK s (s.centerData a b) (slotSum s) := by
  rw [centerData]
  split
  · exact ⟨⟨h.1, Int.emod_nonneg _ (size_cast_pos h).ne',
      Int.emod_lt_of_pos _ (size_cast_pos h)⟩, hpos, le_rfl, rfl, rfl⟩
  · exact ⟨h, hpos, le_rfl, rfl, rfl⟩

lemma collapseLoop_stage :
    ∀ (fuel : ℕ) (s : ContiguousStorage), Ranged s → (∀ p, 0 ≤ s.counts p) →
      slotSum s < 2 ^ 63 → StageOK s (s.collapseLoop fuel) (slotSum s) := by
  intro fuel
  induction fuel with
  | zero => intro s h hpos hsum; exact ⟨h, hpos, le_rfl, rfl, rfl⟩
  | succ n ih =>
      intro s h hpos hsum
      rw [collapseLoop]
      split
      · rename_i mi ma _ _
        dsimp only
        split
        · exact ⟨h, hpos, le_rfl, rfl, rfl⟩
        · split
          · rename_i hcnt
            obtain ⟨gpos, gsum⟩ := collapse_move_spec hpos
              (getPosition_mem h (s.findNextNonzero ma (mi + 1) ((ma - mi).toNat + 1)))
              (getPosition_mem h mi) hsum
            have hr3 : Ranged { s with
                counts := Function.update (Function.update s.counts
                  (s.getPosition (s.findNextNonzero ma (mi + 1) ((ma - mi).toNat + 1)))
                  (wrap64 (s.counts (s.getPosition
                      (s.findNextNonzero ma (mi + 1) ((ma - mi).toNat + 1))) +
                    s.counts (s.getPosition mi))))
                  (s.getPosition mi) 0
                numBuckets := s.numBuckets - 1
                minIndex := some (s.findNextNonzero ma (mi + 1) ((ma - mi).toNat + 1))
                head := (s.head + (s.findNextNonzero ma (mi + 1) ((ma - mi).toNat + 1) -
                  s.findNextNonzero ma (mi + 1) ((ma - mi).toNat + 1)) + s.offset) %
                    (s.size : ℤ) } :=
              ⟨h.1, Int.emod_nonneg _ (size_cast_pos h).ne',
                Int.emod_lt_of_pos _ (size_cast_pos h)⟩
            obtain ⟨r1, r2, r3, r4, r5⟩ := ih _ hr3 gpos (lt_of_le_of_lt gsum hsum)
            exact ⟨r1, r2, le_trans r3 gsum, r4, r5⟩
          · have hr3 : Ranged { s with
                minIndex := some (s.findNextNonzero ma (mi + 1) ((ma - mi).toNat + 1))
                head := (s.head + (s.findNextNonzero ma (mi + 1) ((ma - mi).toNat + 1) -
                  s.findNextNonzero ma (mi + 1) ((ma - mi).toNat + 1)) + s.offset) %
                    (s.size : ℤ) } :=
              ⟨h.1, Int.emod_nonneg _ (size_cast_pos h).ne',
                Int.emod_lt_of_pos _ (size_cast_pos h)⟩
            obtain ⟨r1, r2, r3, r4, r5⟩ := ih _ hr3 hpos hsum
            exact ⟨r1, r2, r3, r4, r5⟩
      · exact ⟨h, hpos, le_rfl, rfl, rfl⟩

lemma collapseToFit_stage {s : ContiguousStorage} (h : Ranged s)
    (hpos : ∀ p, 0 ≤ s.counts p) (hsum : slotSum s < 2 ^ 63) (a b : ℤ) :
    StageOK s (s.collapseToFit a b) (slotSum s) := by
  rw [collapseToFit]
  split
  · exact ⟨h, hpos, le_rfl, rfl, rfl⟩
  · exact collapseLoop_stage _ s h hpos hsum

lemma extendRange_stage {s : ContiguousStorage} (h : Ranged s)
    (hpos : ∀ p, 0 ≤ s.counts p) (hsum : slotSum s < 2 ^ 63) (mi ma k : ℤ) :
    StageOK s (s.extendRange mi ma k) (slotSum s) := by
  rw [extendRange]
  split
  · dsimp only
    obtain ⟨c1, c2, c3, c4, c5⟩ := centerData_stage h hpos (min mi k) (max ma k)
    have hsumC : slotSum (s.centerData (min mi k) (max ma k)) < 2 ^ 63 :=
      lt_of_le_of_lt c3 hsum
    split
    · obtain ⟨f1, f2, f3, f4, f5⟩ := collapseToFit_stage c1 c2 hsumC (min mi k) (max ma k)
      exact ⟨f1, f2, le_trans f3 c3, f4.trans c4, f5.trans c5⟩
    · exact ⟨c1, c2, c3, c4, c5⟩
  · exact ⟨h, hpos, le_rfl, rfl, rfl⟩

lemma slotSum_def (s : ContiguousStorage) :
    slotSum s = ∑ i in Finset.Ico (0 : ℤ) (s.size : ℤ), s.counts i := rfl

lemma findTwoAux_mem {s : ContiguousStorage} (h : Ranged s) :
    ∀ (fuel i : ℕ) {fp : ℤ}, fp ∈ Finset.Ico (0 : ℤ) (s.size : ℤ) →
      (s.findTwoAux fp i fuel).1 ∈ Finset.Ico (0 : ℤ) (s.size : ℤ) ∧
        ∀ sp, (s.findTwoAux fp i fuel).2 = some sp →
          sp ∈ Finset.Ico (0 : ℤ) (s.size : ℤ) := by
  intro fuel
  induction fuel with
  | zero =>
      intro i fp hfp
      refine ⟨hfp, ?_⟩
      intro sp hsp
      simp [findTwoAux] at hsp
  | succ n ih =>
      intro i fp hfp
      rw [findTwoAux]
      split
      · split
        · exact ih (i + 1) (mem_Ico_emod (size_cast_pos h) _)
        · refine ⟨hfp, ?_⟩
          intro sp hsp
          simp only [Option.some_inj] at hsp
          rw [← hsp]
          exact mem_Ico_emod (size_cast_pos h) _
      · exact ih (i + 1) hfp

lemma collapseSmallestBuckets_stage {s : ContiguousStorage} (h : Ranged s)
    (hpos : ∀ p, 0 ≤ s.counts p) (hsum : slotSum s < 2 ^ 63) :
    StageOK s s.collapseSmallestBuckets (slotSum s) := by
  rw [collapseSmallestBuckets]
  split
  · exact ⟨h, hpos, le_rfl, rfl, rfl⟩
  · split
    · rename_i mi ma _ _
      dsimp only
      split
      · exact ⟨h, hpos, le_rfl, rfl, rfl⟩
      · rename_i secondPos heq
        have hhead : s.head ∈ Finset.Ico (0 : ℤ) (s.size : ℤ) := by
          rw [Finset.mem_Ico]
          exact ⟨h.2.1, h.2.2⟩
        obtain ⟨hfp1, hfp2⟩ := findTwoAux_mem h ((ma - mi + 1).toNat) 0 hhead
        have hsecond := hfp2 secondPos heq
        obtain ⟨gpos, gsum⟩ := collapse_move_spec hpos hsecond hfp1 hsum
        exact ⟨⟨h.1, (Finset.mem_Ico.mp hsecond).1, (Finset.mem_Ico.mp hsecond).2⟩,
          gpos, gsum, rfl, rfl⟩
    · exact ⟨h, hpos, le_rfl, rfl, rfl⟩

lemma addSeat_stage {s : ContiguousStorage} (h : Ranged s) (hpos : ∀ p, 0 ≤ s.counts p)
    (hsum : slotSum s < 2 ^ 63) {k c : ℤ} (hc : 0 < c)
    (hstep : slotSum s + c < 2 ^ 63) :
    StageOK s (s.addSeat k c) (slotSum s + c) := by
  have hs0 := slotSum_nonneg hpos
  rw [addSeat]
  split
  · -- first insertion: the assignment stores the (in-range) count at slot 0
    have h0mem : (0 : ℤ) ∈ Finset.Ico (0 : ℤ) (s.size : ℤ) := by
      rw [Finset.mem_Ico]
      exact ⟨le_rfl, size_cast_pos h⟩
    have hcw : wrap64 c = c := wrap64_eq_self (by linarith) (by linarith)
    refine ⟨⟨h.1, le_rfl, size_cast_pos (s := s) h⟩,
      nonneg_update hpos _ (by rw [hcw]; exact hc.le), ?_, rfl, rfl⟩
    show (∑ i in Finset.Ico (0 : ℤ) (s.size : ℤ),
        Function.update s.counts 0 (wrap64 c) i) ≤ slotSum s + c
    rw [Finset.sum_update_of_mem h0mem, Finset.sdiff_singleton_eq_erase, hcw]
    have e1 := Finset.add_sum_erase _ s.counts h0mem
    have h00 := hpos 0
    rw [slotSum_def] at *
    linarith
  · rename_i mi ma _ _
    obtain ⟨e1, e2, e3, e4, e5⟩ := extendRange_stage h hpos hsum mi ma k
    dsimp only
    have hposm := getPosition_mem e1 k
    have hle : (s.extendRange mi ma k).counts ((s.extendRange mi ma k).getPosition k) ≤
        slotSum (s.extendRange mi ma k) := counts_le_slotSum e2 hposm
    have h0 := e2 ((s.extendRange mi ma k).getPosition k)
    have hvw : wrap64 ((s.extendRange mi ma k).counts ((s.extendRange mi ma k).getPosition k) + c) =
        (s.extendRange mi ma k).counts ((s.extendRange mi ma k).getPosition k) + c :=
      wrap64_eq_self (by linarith) (by linarith)
    have hsum2 : (∑ i in Finset.Ico (0 : ℤ) ((s.extendRange mi ma k).size : ℤ),
        Function.update (s.extendRange mi ma k).counts
          ((s.extendRange mi ma k).getPosition k)
          (wrap64 ((s.extendRange mi ma k).counts
            ((s.extendRange mi ma k).getPosition k) + c)) i) ≤ slotSum s + c := by
      rw [Finset.sum_update_of_mem hposm, Finset.sdiff_singleton_eq_erase, hvw]
      have ee := Finset.add_sum_erase _ (s.extendRange mi ma k).counts hposm
      simp only [slotSum_def] at e3 hle ⊢
      linarith
    have hbundle : StageOK s { s.extendRange mi ma k with
        counts := Function.update (s.extendRange mi ma k).counts
          ((s.extendRange mi ma k).getPosition k)
          (wrap64 ((s.extendRange mi ma k).counts ((s.extendRange mi ma k).getPosition k) + c)) }
        (slotSum s + c) :=
      ⟨⟨e1.1, e1.2.1, e1.2.2⟩, nonneg_update e2 _ (by rw [hvw]; linarith), hsum2, e4, e5⟩
    split
    · exact ⟨hbundle.1, hbundle.2.1, hbundle.2.2.1, hbundle.2.2.2.1, hbundle.2.2.2.2⟩
    · exact hbundle
  · exact ⟨h, hpos, le_add_of_nonneg_right hc.le, rfl, rfl⟩

lemma add_spec {s : ContiguousStorage} (h : SafeState s) (k c : ℤ)
    (hstep : slotSum s + max c 0 < 2 ^ 63) :
    SafeState (s.add k c) ∧ slotSum (s.add k c) ≤ slotSum s + max c 0 ∧
      (s.add k c).size = s.size := by
  rw [add]
  split
  · exact ⟨h, le_add_of_nonneg_right (le_max_right c 0), rfl⟩
  · rename_i hc
    push_neg at hc
    have hmax : max c 0 = c := max_eq_left hc.le
    rw [hmax]
    rw [hmax] at hstep
    obtain ⟨a1, a2, a3, a4, a5⟩ := addSeat_stage h.1 h.2.1 h.2.2.1 hc hstep
    have ha3 : slotSum (s.addSeat k c) < 2 ^ 63 := lt_of_le_of_lt a3 hstep
    dsimp only
    split
    · obtain ⟨b1, b2, b3, b4, b5⟩ := collapseSmallestBuckets_stage a1 a2 ha3
      refine ⟨⟨?_, b2, ?_, ?_⟩, ?_, ?_⟩
      · exact b1
      · exact lt_of_le_of_lt (le_trans b3 a3) hstep
      · rw [b5, a5]
        exact add_nonneg h.2.2.2 hc.le
      · exact le_trans b3 a3
      · rw [b4, a4]
    · refine ⟨⟨a1, a2, lt_of_le_of_lt a3 hstep, ?_⟩, a3, a4⟩
      rw [a5]
      exact add_nonneg h.2.2.2 hc.le

lemma remove_spec {s : ContiguousStorage} (h : SafeState s) (k c : ℤ)
    (hc63 : c < 2 ^ 63) :
    SafeState (s.remove k c) ∧ slotSum (s.remove k c) ≤ slotSum s ∧
      (s.remove k c).size = s.size := by
  rw [remove]
  split
  · exact ⟨h, le_rfl, rfl⟩
  · rename_i hcz
    push_neg at hcz
    split
    · rename_i mi ma _ _
      split
      · have hposm := getPosition_mem h.1 k
        have hold : s.counts (s.getPosition k) ≤ slotSum s := counts_le_slotSum h.2.1 hposm
        have h0 := h.2.1 (s.getPosition k)
        have hwr : wrap64 (s.counts (s.getPosition k) - c) = s.counts (s.getPosition k) - c :=
          wrap64_eq_self (by linarith) (by linarith [h.2.2.1])
        have hnn : ∀ p, 0 ≤ Function.update s.counts (s.getPosition k)
            (max 0 (wrap64 (s.counts (s.getPosition k) - c))) p :=
          nonneg_update h.2.1 _ (le_max_left 0 _)
        have hss : (∑ i in Finset.Ico (0 : ℤ) (s.size : ℤ),
            Function.update s.counts (s.getPosition k)
              (max 0 (wrap64 (s.counts (s.getPosition k) - c))) i) ≤ slotSum s := by
          rw [Finset.sum_update_of_mem hposm, Finset.sdiff_singleton_eq_erase, hwr]
          have ee := Finset.add_sum_erase _ s.counts hposm
          have hmle : max 0 (s.counts (s.getPosition k) - c) ≤ s.counts (s.getPosition k) := by
            omega
          simp only [slotSum_def] at *
          linarith
        have hssb : (∑ i in Finset.Ico (0 : ℤ) (s.size : ℤ),
            Function.update s.counts (s.getPosition k)
              (max 0 (wrap64 (s.counts (s.getPosition k) - c))) i) < 2 ^ 63 :=
          lt_of_le_of_lt hss h.2.2.1
        have ht : (0 : ℤ) ≤ max 0 (s.totalCount - c) := le_max_left 0 _
        dsimp only
        split
        · split
          · exact ⟨⟨⟨h.1.1, h.1.2.1, h.1.2.2⟩, hnn, hssb, ht⟩, hss, rfl⟩
          · split
            · split
              · exact ⟨⟨⟨h.1.1, Int.emod_nonneg _ (size_cast_pos h.1).ne',
                  Int.emod_lt_of_pos _ (size_cast_pos h.1)⟩, hnn, hssb, ht⟩, hss, rfl⟩
              · exact ⟨⟨⟨h.1.1, h.1.2.1, h.1.2.2⟩, hnn, hssb, ht⟩, hss, rfl⟩
            · split
              · split
                · exact ⟨⟨⟨h.1.1, h.1.2.1, h.1.2.2⟩, hnn, hssb, ht⟩, hss, rfl⟩
                · exact ⟨⟨⟨h.1.1, h.1.2.1, h.1.2.2⟩, hnn, hssb, ht⟩, hss, rfl⟩
              · exact ⟨⟨⟨h.1.1, h.1.2.1, h.1.2.2⟩, hnn, hssb, ht⟩, hss, rfl⟩
        · exact ⟨⟨⟨h.1.1, h.1.2.1, h.1.2.2⟩, hnn, hssb, ht⟩, hss, rfl⟩
      · exact ⟨h, le_rfl, rfl⟩
    · exact ⟨h, le_rfl, rfl⟩

/-- Claim C10's clamping half, unconditional: `remove` writes
`max(0, ...)` into both the slot and `total_count`, so it preserves
nonnegativity no matter what. -/
lemma remove_nonneg_clamp {s : ContiguousStorage} (h : Nonneg s) (k c : ℤ) :
    Nonneg (s.remove k c) := by
  rw [remove]
  split
  · exact h
  · split
    · split
      · have h1 : Nonneg { s with
            counts := Function.update s.counts (s.getPosition k)
              (max 0 (wrap64 (s.counts (s.getPosition k) - c)))
            totalCount := max 0 (s.totalCount - c) } :=
          ⟨nonneg_update h.1 _ (le_max_left 0 _), le_max_left 0 _⟩
        dsimp only
        split
        · split
          · exact h1
          · split
            · split
              · exact h1
              · exact h1
            · split
              · split
                · exact h1
                · exact h1
              · exact h1
        · exact h1
      · exact h
    · exact h

lemma totalCount_centerData (s : ContiguousStorage) (a b : ℤ) :
    (s.centerData a b).totalCount = s.totalCount := by
  rw [centerData]
  split <;> rfl

lemma totalCount_collapseLoop :
    ∀ (fuel : ℕ) (s : ContiguousStorage), (s.collapseLoop fuel).totalCount = s.totalCount := by
  intro fuel
  induction fuel with
  | zero => intro s; rfl
  | succ n ih =>
      intro s
      rw [collapseLoop]
      split
      · dsimp only
        split
        · rfl
        · rw [ih]
          split <;> rfl
      · rfl

lemma totalCount_collapseToFit (s : ContiguousStorage) (a b : ℤ) :
    (s.collapseToFit a b).totalCount = s.totalCount := by
  rw [collapseToFit]
  split
  · rfl
  · exact totalCount_collapseLoop _ s

lemma totalCount_extendRange (s : ContiguousStorage) (mi ma k : ℤ) :
    (s.extendRange mi ma k).totalCount = s.totalCount := by
  rw [extendRange]
  split
  · dsimp only
    split
    · rw [totalCount_collapseToFit, totalCount_centerData]
    · exact totalCount_centerData s _ _
  · rfl

lemma totalCount_collapseSmallestBuckets (s : ContiguousStorage) :
    s.collapseSmallestBuckets.totalCount = s.totalCount := by
  rw [collapseSmallestBuckets]
  split
  · rfl
  · split
    · dsimp only
      split <;> rfl
    · rfl

lemma totalCount_addSeat (s : ContiguousStorage) (k c : ℤ) :
    (s.addSeat k c).totalCount = s.totalCount := by
  rw [addSeat]
  split
  · rfl
  · dsimp only
    split
    · exact totalCount_extendRange s _ _ _
    · exact totalCount_extendRange s _ _ _
  · rfl

lemma totalCount_add_nonneg {s : ContiguousStorage} (h : 0 ≤ s.totalCount) (k c : ℤ) :
    0 ≤ (s.add k c).totalCount := by
  rw [add]
  split
  · exact h
  · rename_i hc
    push_neg at hc
    dsimp only
    split
    · rw [totalCount_collapseSmallestBuckets, totalCount_addSeat]
      exact add_nonneg h hc.le
    · rw [totalCount_addSeat]
      exact add_nonneg h hc.le

lemma totalCount_remove_nonneg {s : ContiguousStorage} (h : 0 ≤ s.totalCount) (k c : ℤ) :
    0 ≤ (s.remove k c).totalCount := by
  rw [remove]
  split
  · exact h
  · split
    · split
      · dsimp only
        split
        · split
          · exact le_max_left 0 _
          · split
            · split
              · exact le_max_left 0 _
              · exact le_max_left 0 _
            · split
              · split
                · exact le_max_left 0 _
                · exact le_max_left 0 _
              · exact le_max_left 0 _
        · exact le_max_left 0 _
      · exact h
    · exact h

lemma totalCount_merge_nonneg {s : ContiguousStorage} (h : 0 ≤ s.totalCount)
    (o : ContiguousStorage) : 0 ≤ (s.merge o).totalCount := by
  rw [merge]
  split
  · rename_i mi ma _ _
    have : ∀ (l : List ℕ) (x : ContiguousStorage), 0 ≤ x.totalCount →
        0 ≤ (l.foldl (fun (acc : ContiguousStorage) (i : ℕ) =>
          let pos := (o.head + (i : ℤ)) % (o.size : ℤ)
          if o.counts pos > 0 then acc.add (mi + (i : ℤ)) (o.counts pos) else acc) x).totalCount := by
      intro l
      induction l with
      | nil => intro x hx; exact hx
      | cons hd tl ih =>
          intro x hx
          rw [List.foldl_cons]
          apply ih
          dsimp only
          split
          · exact totalCount_add_nonneg hx _ _
          · exact hx
    exact this _ s h
  · exact h

lemma listMax_nonneg (g : ℕ → ℤ) : ∀ l : List ℕ, 0 ≤ (l.map fun i => max (g i) 0).sum
  | [] => by simp
  | hd :: tl => by
      rw [List.map_cons, List.sum_cons]
      exact add_nonneg (le_max_right _ 0) (listMax_nonneg g tl)

lemma mergeTotal_nonneg (o : ContiguousStorage) : 0 ≤ mergeTotal o := by
  rw [mergeTotal]
  split
  · exact listMax_nonneg _ _
  · exact le_rfl

lemma mergeList_spec (o : ContiguousStorage) (mi : ℤ) :
    ∀ (l : List ℕ) (x : ContiguousStorage), SafeState x →
      slotSum x + (l.map fun (i : ℕ) =>
        max (o.counts ((o.head + (i : ℤ)) % (o.size : ℤ))) 0).sum < 2 ^ 63 →
      SafeState (l.foldl (fun (acc : ContiguousStorage) (i : ℕ) =>
          let pos := (o.head + (i : ℤ)) % (o.size : ℤ)
          if o.counts pos > 0 then acc.add (mi + (i : ℤ)) (o.counts pos) else acc) x) ∧
        slotSum (l.foldl (fun (acc : ContiguousStorage) (i : ℕ) =>
          let pos := (o.head + (i : ℤ)) % (o.size : ℤ)
          if o.counts pos > 0 then acc.add (mi + (i : ℤ)) (o.counts pos) else acc) x) ≤
          slotSum x + (l.map fun (i : ℕ) =>
            max (o.counts ((o.head + (i : ℤ)) % (o.size : ℤ))) 0).sum := by
  intro l
  induction l with
  | nil =>
      intro x hx hb
      rw [List.foldl_nil]
      exact ⟨hx, by simp⟩
  | cons hd tl ih =>
      intro x hx hb
      rw [List.map_cons, List.sum_cons] at hb
      rw [List.foldl_cons]
      have htl0 : 0 ≤ (tl.map fun (i : ℕ) =>
          max (o.counts ((o.head + (i : ℤ)) % (o.size : ℤ))) 0).sum := listMax_nonneg _ _
      dsimp only
      split
      · rename_i hpos0
        have hmx : max (o.counts ((o.head + (hd : ℤ)) % (o.size : ℤ))) 0 =
            o.counts ((o.head + (hd : ℤ)) % (o.size : ℤ)) := max_eq_left hpos0.le
        have hstep : slotSum x + max (o.counts ((o.head + (hd : ℤ)) % (o.size : ℤ))) 0 <
            2 ^ 63 := by
          rw [hmx]
          rw [hmx] at hb
          linarith
        obtain ⟨s1, s2, _⟩ := add_spec hx (mi + (hd : ℤ))
          (o.counts ((o.head + (hd : ℤ)) % (o.size : ℤ))) hstep
        rw [hmx] at s2
        have hb2 : slotSum (x.add (mi + (hd : ℤ))
            (o.counts ((o.head + (hd : ℤ)) % (o.size : ℤ)))) + (tl.map fun (i : ℕ) =>
              max (o.counts ((o.head + (i : ℤ)) % (o.size : ℤ))) 0).sum < 2 ^ 63 := by
          rw [hmx] at hb
          linarith
        obtain ⟨r1, r2⟩ := ih _ s1 hb2
        refine ⟨r1, ?_⟩
        rw [List.map_cons, List.sum_cons, hmx]
        linarith
      · rename_i hpos0
        have hmx : max (o.counts ((o.head + (hd : ℤ)) % (o.size : ℤ))) 0 = 0 :=
          max_eq_right (not_lt.mp hpos0)
        obtain ⟨r1, r2⟩ := ih _ hx (by rw [hmx] at hb; linarith)
        refine ⟨r1, ?_⟩
        rw [List.map_cons, List.sum_cons, hmx]
        linarith

lemma merge_spec {s : ContiguousStorage} (h : SafeState s) (o : ContiguousStorage)
    (hstep : slotSum s + mergeTotal o < 2 ^ 63) :
    SafeState (s.merge o) ∧ slotSum (s.merge o) ≤ slotSum s + mergeTotal o := by
  rw [merge]
  split
  · rename_i mi ma hmi hma
    have hmt : mergeTotal o = ((List.range (ma - mi + 1).toNat).map fun (i : ℕ) =>
        max (o.counts ((o.head + (i : ℤ)) % (o.size : ℤ))) 0).sum := by
      rw [mergeTotal, hmi, hma]
    rw [hmt] at hstep
    obtain ⟨r1, r2⟩ := mergeList_spec o mi (List.range (ma - mi + 1).toNat) s h hstep
    rw [hmt]
    exact ⟨r1, r2⟩
  · exact ⟨h, le_add_of_nonneg_right (mergeTotal_nonneg o)⟩

end ContiguousStorage

/-- Claim C10 is false as stated: bucket counts are numpy `int64` values
and the in-place addition wraps.  Two `add(0, 2^62)` calls drive the
bucket-0 count to `-2^63`, so after this two-operation sequence a stored
bucket count is negative and the nonnegativity invariant fails. -/
theorem claim10_counterexample :
    ([ContiguousStorage.StoreOp.addOp 0 (2 ^ 62),
        ContiguousStorage.StoreOp.addOp 0 (2 ^ 62)].foldl
      ContiguousStorage.applyOp (ContiguousStorage.init 8)).getCount 0 = -(2 ^ 63) ∧
      ¬ ([ContiguousStorage.StoreOp.addOp 0 (2 ^ 62),
          ContiguousStorage.StoreOp.addOp 0 (2 ^ 62)].foldl
        ContiguousStorage.applyOp (ContiguousStorage.init 8)).Nonneg := by
  constructor
  · decide
  · intro hn
    have h0 := hn.1 0
    have hc : ([ContiguousStorage.StoreOp.addOp 0 (2 ^ 62),
        ContiguousStorage.StoreOp.addOp 0 (2 ^ 62)].foldl
      ContiguousStorage.applyOp (ContiguousStorage.init 8)).counts 0 = -(2 ^ 63) := by
      decide
    rw [hc] at h0
    norm_num at h0

/-- Claim C10, amended for int64 overflow: `remove` clamps both the
bucket count and `total_count` at zero, so it preserves nonnegativity
unconditionally; `total_count` (a plain Python integer) stays nonnegative
across *every* sequence of `add`/`remove`/`merge`; and the bucket counts
stay nonnegative across every sequence whose operations never overflow
the int64 slots — captured by `SafeOps`: each add or merge keeps the
running slot total below `2^63` and each remove count lies within the
int64 range.  Past that limit the in-place addition wraps and a count
goes negative (see the counterexample). -/
theorem claim10_clamped_nonneg :
    (∀ (s : ContiguousStorage) (k c : ℤ), s.Nonneg → (s.remove k c).Nonneg) ∧
    (∀ s : ContiguousStorage, 0 ≤ s.totalCount →
      ∀ ops : List ContiguousStorage.StoreOp,
        0 ≤ (ops.foldl ContiguousStorage.applyOp s).totalCount) ∧
    (∀ s : ContiguousStorage, ContiguousStorage.SafeState s →
      ∀ ops : List ContiguousStorage.StoreOp, ContiguousStorage.SafeOps s ops →
        (ops.foldl ContiguousStorage.applyOp s).Nonneg) := by
  refine ⟨fun s k c h => ContiguousStorage.remove_nonneg_clamp h k c, ?_, ?_⟩
  · intro s hs ops
    induction ops generalizing s with
    | nil => exact hs
    | cons op rest ih =>
        rw [List.foldl_cons]
        apply ih
        cases op with
        | addOp k c => exact ContiguousStorage.totalCount_add_nonneg hs k c
        | removeOp k c => exact ContiguousStorage.totalCount_remove_nonneg hs k c
        | mergeOp o => exact ContiguousStorage.totalCount_merge_nonneg hs o
  · have main : ∀ (ops : List ContiguousStorage.StoreOp) (s : ContiguousStorage),
        ContiguousStorage.SafeState s → ContiguousStorage.SafeOps s ops →
        ContiguousStorage.SafeState (ops.foldl ContiguousStorage.applyOp s) := by
      intro ops
      induction ops with
      | nil => intro s hs _; exact hs
      | cons op rest ih =>
          intro s hs hsafe
          rw [List.foldl_cons]
          apply ih
          · cases op with
            | addOp k c => exact (ContiguousStorage.add_spec hs k c hsafe.1).1
            | removeOp k c => exact (ContiguousStorage.remove_spec hs k c hsafe.1).1
            | mergeOp o => exact (ContiguousStorage.merge_spec hs o hsafe.1).1
          · exact hsafe.2
    intro s hs ops hsafe
    have hfin := main ops s hs hsafe
    exact ⟨hfin.2.1, hfin.2.2.2⟩

/-- Witness for `claim10_clamped_nonneg` at concrete inputs: an
over-removal against the fresh store (clamped at zero), total-count
nonnegativity over an add/remove sequence, and full nonnegativity over an
overflow-free add/remove/merge sequence. -/
theorem claim10_clamped_nonneg_witness :
    ((ContiguousStorage.init 8).remove 3 5).Nonneg ∧
      0 ≤ ([ContiguousStorage.StoreOp.addOp 0 1,
          ContiguousStorage.StoreOp.removeOp 0 5].foldl
        ContiguousStorage.applyOp (ContiguousStorage.init 8)).totalCount ∧
      ([ContiguousStorage.StoreOp.addOp 0 1, ContiguousStorage.StoreOp.removeOp 0 5,
          ContiguousStorage.StoreOp.mergeOp ((ContiguousStorage.init 8).add 2 3)].foldl
        ContiguousStorage.applyOp (ContiguousStorage.init 8)).Nonneg := by
  have h0 : (ContiguousStorage.init 8).Nonneg := ⟨fun p => le_refl 0, le_refl 0⟩
  have hsafe : ContiguousStorage.SafeState (ContiguousStorage.init 8) :=
    ⟨⟨by decide, le_refl 0, by decide⟩, fun p => le_refl 0, by decide, le_refl 0⟩
  refine ⟨claim10_clamped_nonneg.1 _ 3 5 h0, claim10_clamped_nonneg.2.1 _ (le_refl 0) _,
    claim10_clamped_nonneg.2.2 _ hsafe _ ?_⟩
  refine ⟨?_, ?_, ?_, trivial⟩
  · simp only [ContiguousStorage.stepOK]
    decide
  · simp only [ContiguousStorage.stepOK]
    decide
  · simp only [ContiguousStorage.stepOK]
    decide



end GPUQuantile
